import Mathlib

/-!
Verification of `SuccessCondition` (src/src/util/success_condition.h) and of
`connect_to_host` (src/src/connect_to_host.h) from the ouinet/ceno2 repository.

The C++ core is a single-threaded cooperative race coordinator.  We embed it
as an explicit state machine:

* `SuccessCondition.WaitState` mirrors the C++ `SuccessCondition::WaitState`
  struct: the fields `remaining_locks : int` and `success : bool`, plus a
  `notified` flag standing for "the embedded `ConditionVariable` has been
  notified at least once".
* `SuccessCondition.RaceState` adds the bookkeeping that in C++ lives in the
  `Lock` objects themselves: `locks` records, for each `Lock` object ever
  constructed from this shared state (indexed by construction order), whether
  its `_wait_state` shared pointer is still non-null, tagged with a credential
  id identifying which `lock()` acquisition it currently carries (move
  operations transfer the credential between `Lock` objects).  `nextCred`
  counts acquisitions.
* `SuccessCondition.Event` is one mutation of the shared state, translated
  line by line from the C++ member functions: `acquire` is the
  `Lock(shared_ptr<WaitState>)` constructor reached through
  `SuccessCondition::lock()` (it increments `remaining_locks`);
  `release i b` is `Lock::release(b)` on lock object `i` (a no-op when the
  lock's pointer is already null); `drop i` is `Lock::~Lock()`, whose body is
  `release(false)`; `moveAssign i j` is `operator=(Lock&&)` (`i = move(j)`),
  whose body is `release(false)` on the target followed by the pointer
  transfer; `moveCtorFrom j` is the move constructor, which default-constructs
  a null lock and move-assigns `j` into it (so its internal `release(false)`
  is a no-op).
* The coordinator (`SuccessCondition` object proper) is its `_wait_state`
  shared pointer, modelled as `Option RaceState`; `wait_for_success` and
  `lock` are translated from the source.  `wait_for_success` returns
  `some b` when it returns `b` immediately (the `blocked()` test fails, so
  `condition.wait` is never called) and `none` when it suspends on
  `condition.wait`, together with the coordinator state after the call
  (the code moves `_wait_state` out, leaving it null).
-/

namespace SuccessCondition

/-- The C++ struct `SuccessCondition::WaitState`: `remaining_locks : int`,
`success : bool`; `notified` models whether `condition.notify()` has been
called on the embedded `ConditionVariable`. -/
structure WaitState where
  remaining_locks : Int
  success : Bool
  notified : Bool
deriving DecidableEq, Repr

/-- `WaitState::blocked()`: `remaining_locks > 0 && !success`. -/
def WaitState.blocked (s : WaitState) : Bool :=
  decide (0 < s.remaining_locks) && !s.success

/-- The `WaitState(ios)` constructor: `remaining_locks = 0`,
`success = false`, condition not yet notified. -/
def WaitState.mkInit : WaitState :=
  ⟨0, false, false⟩

/-- One race's shared `WaitState` together with the per-`Lock`-object
bookkeeping: `locks.getD i none = some k` means lock object `i` has a
non-null `_wait_state` and currently carries acquisition credential `k`;
`none` means its pointer is null (already consumed or moved-from).
`nextCred` is the number of acquisitions performed so far. -/
structure RaceState where
  ws : WaitState
  locks : List (Option Nat)
  nextCred : Nat
deriving DecidableEq, Repr

/-- The state shared by a freshly allocated `make_shared<WaitState>(ios)`:
no lock objects yet. -/
def RaceState.mkInit : RaceState :=
  ⟨WaitState.mkInit, [], 0⟩

/-- One shared-state mutation, performed by a `Lock` member function or by
lock acquisition.  See the file comment for the correspondence. -/
inductive Event where
  | acquire
  | release (i : Nat) (success : Bool)
  | drop (i : Nat)
  | moveAssign (tgt src : Nat)
  | moveCtorFrom (src : Nat)
deriving DecidableEq, Repr

/-- The body of `Lock::release(bool success)` executed by lock object `i`:
if `_wait_state` is null, return; otherwise decrement `remaining_locks`,
set `success` if requested, notify the condition if the state is no longer
`blocked()`, and reset the pointer. -/
def releaseCore (s : RaceState) (i : Nat) (b : Bool) : RaceState :=
  if (s.locks.getD i none).isSome then
    let r := s.ws.remaining_locks - 1
    let suc := s.ws.success || b
    let n := s.ws.notified || !(WaitState.blocked ⟨r, suc, s.ws.notified⟩)
    ⟨⟨r, suc, n⟩, s.locks.set i none, s.nextCred⟩
  else s

/-- Apply one event to the shared state, translated from the C++ member
function bodies. -/
def step (s : RaceState) : Event → RaceState
  | .acquire =>
      ⟨⟨s.ws.remaining_locks + 1, s.ws.success, s.ws.notified⟩,
        s.locks ++ [some s.nextCred], s.nextCred + 1⟩
  | .release i b => releaseCore s i b
  | .drop i => releaseCore s i false
  | .moveAssign i j =>
      if i < s.locks.length then
        ⟨(releaseCore s i false).ws,
          ((releaseCore s i false).locks.set i
              ((releaseCore s i false).locks.getD j none)).set j none,
          (releaseCore s i false).nextCred⟩
      else releaseCore s i false
  | .moveCtorFrom j =>
      ⟨s.ws, (s.locks.set j none) ++ [s.locks.getD j none], s.nextCred⟩

/-- Run a sequence of events. -/
def run (s : RaceState) : List Event → RaceState
  | [] => s
  | e :: t => run (step s e) t

/-- `SuccessCondition::wait_for_success(yield)`.  The coordinator is its
`_wait_state` pointer (`none` = null).  The code allocates a fresh state if
the pointer is null, moves the pointer out of the coordinator, waits only if
`blocked()`, and returns `success`.  First component: `some b` when the call
returns `b` immediately without suspending, `none` when it suspends on
`condition.wait`.  Second component: the coordinator state afterwards. -/
def wait_for_success (c : Option RaceState) : Option Bool × Option RaceState :=
  let s := c.getD RaceState.mkInit
  (if s.ws.blocked then none else some s.ws.success, none)

/-- `SuccessCondition::lock()`: allocate a fresh `WaitState` if the pointer
is null, then construct a `Lock` from it (which increments
`remaining_locks`).  Returns the coordinator state afterwards. -/
def lock (c : Option RaceState) : Option RaceState :=
  some (step (c.getD RaceState.mkInit) .acquire)

/-- Number of lock objects whose `_wait_state` pointer is still non-null. -/
def countHeld (l : List (Option Nat)) : Nat :=
  l.countP fun o => o.isSome

/-- Number of lock objects currently carrying acquisition credential `k`. -/
def countCred (l : List (Option Nat)) (k : Nat) : Nat :=
  l.countP fun o => o == some k

/-- Whether event `e`, fired in state `s`, is a `release(true)` call that
actually consumes a held lock (rather than a no-op on a null lock). -/
def isConsumedSuccess (s : RaceState) (e : Event) : Bool :=
  match e with
  | .release i b => b && (s.locks.getD i none).isSome
  | _ => false

/-- Whether some event of the trace is a consumed `release(true)`. -/
def consumesSuccess (s : RaceState) : List Event → Bool
  | [] => false
  | e :: t => isConsumedSuccess s e || consumesSuccess (step s e) t

/-- Whether event `e`, fired in state `s`, decrements `remaining_locks` on
behalf of acquisition credential `k` (the consumed lock carried `k`). -/
def decrementsCred (s : RaceState) (e : Event) (k : Nat) : Bool :=
  match e with
  | .release i _ => s.locks.getD i none == some k
  | .drop i => s.locks.getD i none == some k
  | .moveAssign i _ => s.locks.getD i none == some k
  | _ => false

/-- Number of decrements of `remaining_locks` performed on behalf of
credential `k` along the trace. -/
def credDecrements (s : RaceState) (t : List Event) (k : Nat) : Nat :=
  match t with
  | [] => 0
  | e :: rest =>
      (if decrementsCred s e k then 1 else 0) + credDecrements (step s e) rest k

/-! ### List bookkeeping lemmas -/

theorem getD_set_self (l : List (Option Nat)) (i : Nat) (x : Option Nat)
    (h : i < l.length) : (l.set i x).getD i none = x := by
  simp [List.getD_eq_getElem?_getD, List.getElem?_set_self, h]

theorem getD_set_ne (l : List (Option Nat)) (i j : Nat) (x : Option Nat)
    (h : i ≠ j) : (l.set i x).getD j none = l.getD j none := by
  simp [List.getD_eq_getElem?_getD, List.getElem?_set_ne h]

theorem countP_set (p : Option Nat → Bool) (hp : p none = false)
    (l : List (Option Nat)) (i : Nat) (x : Option Nat) :
    (l.set i x).countP p + (if p (l.getD i none) then 1 else 0)
      = l.countP p + (if i < l.length then (if p x then 1 else 0) else 0) := by
  induction l generalizing i with
  | nil => simp [hp]
  | cons a l ih =>
    cases i with
    | zero =>
      simp only [List.set_cons_zero, List.countP_cons, List.getD_cons_zero,
        List.length_cons]
      have : 0 < l.length + 1 := Nat.succ_pos _
      simp only [if_pos this]
      omega
    | succ n =>
      simp only [List.set_cons_succ, List.countP_cons, List.getD_cons_succ,
        List.length_cons]
      have h1 := ih n
      have h2 : n + 1 < l.length + 1 ↔ n < l.length := by omega
      simp only [h2]
      omega

theorem countP_transfer (p : Option Nat → Bool) (hp : p none = false)
    (l : List (Option Nat)) (i j : Nat) (hi : i < l.length)
    (hnone : l.getD i none = none) :
    ((l.set i (l.getD j none)).set j none).countP p = l.countP p := by
  have hfirst := countP_set p hp l i (l.getD j none)
  have hsecond := countP_set p hp (l.set i (l.getD j none)) j none
  rw [List.length_set] at hsecond
  rw [hnone] at hfirst
  simp only [hp, Bool.false_eq_true, if_false, Nat.add_zero, if_pos hi] at hfirst
  by_cases hij : i = j
  · subst hij
    rw [hnone] at hfirst hsecond ⊢
    rw [getD_set_self l i none hi] at hsecond
    simp only [hp, Bool.false_eq_true, if_false, Nat.add_zero] at hfirst hsecond
    by_cases hii : i < l.length
    · simp only [if_pos hii] at hsecond
      omega
    · omega
  · have hgd : (l.set i (l.getD j none)).getD j none = l.getD j none :=
      getD_set_ne l i j _ hij
    rw [hgd] at hsecond
    by_cases hj : j < l.length
    · simp only [if_pos hj, hp, Bool.false_eq_true, if_false, Nat.add_zero] at hsecond
      omega
    · have hjd : l.getD j none = none := List.getD_eq_default l none (by omega)
      rw [hjd] at hfirst hsecond ⊢
      simp only [hp, Bool.false_eq_true, if_false, Nat.add_zero, if_neg hj] at hfirst hsecond
      omega

/-! ### Basic facts about `run` and the shared fields -/

theorem run_append (s : RaceState) (t1 t2 : List Event) :
    run s (t1 ++ t2) = run (run s t1) t2 := by
  induction t1 generalizing s with
  | nil => rfl
  | cons e t ih => simp [run, ih]

/-! ### Characterizations of `releaseCore` and `step` -/

theorem getD_lt_of_some {l : List (Option Nat)} {i k : Nat}
    (h : l.getD i none = some k) : i < l.length := by
  by_contra hge
  rw [List.getD_eq_default l none (by omega)] at h
  exact Option.noConfusion h

theorem releaseCore_eq_self {s : RaceState} {i : Nat}
    (h : s.locks.getD i none = none) (b : Bool) : releaseCore s i b = s := by
  unfold releaseCore
  rw [h]
  simp

theorem releaseCore_eq_consume {s : RaceState} {i k : Nat}
    (h : s.locks.getD i none = some k) (b : Bool) :
    releaseCore s i b =
      ⟨⟨s.ws.remaining_locks - 1, s.ws.success || b,
          s.ws.notified ||
            !(WaitState.blocked
                ⟨s.ws.remaining_locks - 1, s.ws.success || b, s.ws.notified⟩)⟩,
        s.locks.set i none, s.nextCred⟩ := by
  unfold releaseCore
  rw [h]
  rfl

theorem releaseCore_locks_length (s : RaceState) (i : Nat) (b : Bool) :
    (releaseCore s i b).locks.length = s.locks.length := by
  cases hgd : s.locks.getD i none with
  | none => rw [releaseCore_eq_self hgd]
  | some k => rw [releaseCore_eq_consume hgd]; exact List.length_set ..

theorem releaseCore_getD_none (s : RaceState) (i : Nat) (b : Bool) :
    (releaseCore s i b).locks.getD i none = none := by
  cases hgd : s.locks.getD i none with
  | none => rw [releaseCore_eq_self hgd]; exact hgd
  | some k =>
    rw [releaseCore_eq_consume hgd]
    exact getD_set_self s.locks i none (getD_lt_of_some hgd)

theorem releaseCore_nextCred (s : RaceState) (i : Nat) (b : Bool) :
    (releaseCore s i b).nextCred = s.nextCred := by
  cases hgd : s.locks.getD i none with
  | none => rw [releaseCore_eq_self hgd]
  | some k => rw [releaseCore_eq_consume hgd]

/-! ### Specialized counting corollaries -/

theorem countHeld_set_none (l : List (Option Nat)) (i : Nat) :
    countHeld (l.set i none) + (if (l.getD i none).isSome then 1 else 0)
      = countHeld l := by
  have h := countP_set (fun o => o.isSome) rfl l i none
  simp only [countHeld]
  by_cases hi : i < l.length
  · simpa [hi] using h
  · simpa [hi] using h

theorem countHeld_append_one (l : List (Option Nat)) (x : Option Nat) :
    countHeld (l ++ [x]) = countHeld l + (if x.isSome then 1 else 0) := by
  simp [countHeld, List.countP_append, List.countP_cons]

theorem countHeld_transfer (l : List (Option Nat)) (i j : Nat)
    (hi : i < l.length) (hnone : l.getD i none = none) :
    countHeld ((l.set i (l.getD j none)).set j none) = countHeld l :=
  countP_transfer (fun o => o.isSome) rfl l i j hi hnone

theorem countCred_set_none (l : List (Option Nat)) (i k : Nat) :
    countCred (l.set i none) k + (if l.getD i none == some k then 1 else 0)
      = countCred l k := by
  have h := countP_set (fun o => o == some k) rfl l i none
  simp only [countCred]
  by_cases hi : i < l.length
  · simpa [hi] using h
  · simpa [hi] using h

theorem countCred_append_one (l : List (Option Nat)) (x : Option Nat) (k : Nat) :
    countCred (l ++ [x]) k = countCred l k + (if x == some k then 1 else 0) := by
  simp [countCred, List.countP_append, List.countP_cons]

theorem countCred_transfer (l : List (Option Nat)) (i j k : Nat)
    (hi : i < l.length) (hnone : l.getD i none = none) :
    countCred ((l.set i (l.getD j none)).set j none) k = countCred l k :=
  countP_transfer (fun o => o == some k) rfl l i j hi hnone

/-! ### The shared fields along a run -/

/-- One step changes `success` exactly by or-ing in `isConsumedSuccess`. -/
theorem success_step (s : RaceState) (e : Event) :
    (step s e).ws.success = (s.ws.success || isConsumedSuccess s e) := by
  cases e with
  | acquire => simp [step, isConsumedSuccess]
  | release i b =>
    show (releaseCore s i b).ws.success
      = (s.ws.success || (b && (s.locks.getD i none).isSome))
    cases hgd : s.locks.getD i none with
    | none => rw [releaseCore_eq_self hgd]; simp
    | some k => rw [releaseCore_eq_consume hgd]; simp
  | drop i =>
    show (releaseCore s i false).ws.success = (s.ws.success || false)
    cases hgd : s.locks.getD i none with
    | none => rw [releaseCore_eq_self hgd]; simp
    | some k => rw [releaseCore_eq_consume hgd]
  | moveAssign i j =>
    show (step s (.moveAssign i j)).ws.success = (s.ws.success || false)
    have hrel : (releaseCore s i false).ws.success = s.ws.success := by
      cases hgd : s.locks.getD i none with
      | none => rw [releaseCore_eq_self hgd]
      | some k => rw [releaseCore_eq_consume hgd]; simp
    simp only [step, Bool.or_false]
    split
    · exact hrel
    · exact hrel
  | moveCtorFrom j => simp [step, isConsumedSuccess]

/-- `success` after a run: the initial value or-ed with whether the trace
contains a consumed `release(true)`. -/
theorem success_run (s : RaceState) (t : List Event) :
    (run s t).ws.success = (s.ws.success || consumesSuccess s t) := by
  induction t generalizing s with
  | nil => simp [run, consumesSuccess]
  | cons e t ih =>
    simp only [run, consumesSuccess, ih, success_step, Bool.or_assoc]

/-- `remaining_locks` always equals the number of lock objects whose pointer
is still non-null. -/
theorem remaining_step (s : RaceState) (e : Event)
    (h : s.ws.remaining_locks = (countHeld s.locks : Int)) :
    (step s e).ws.remaining_locks = (countHeld (step s e).locks : Int) := by
  have hrel : ∀ i b, (releaseCore s i b).ws.remaining_locks
      = (countHeld (releaseCore s i b).locks : Int) := by
    intro i b
    cases hgd : s.locks.getD i none with
    | none => rw [releaseCore_eq_self hgd]; exact h
    | some k =>
      rw [releaseCore_eq_consume hgd]
      show s.ws.remaining_locks - 1 = (countHeld (s.locks.set i none) : Int)
      have hc := countHeld_set_none s.locks i
      rw [hgd] at hc
      simp only [Option.isSome_some, if_true] at hc
      omega
  cases e with
  | acquire =>
    show s.ws.remaining_locks + 1
      = (countHeld (s.locks ++ [some s.nextCred]) : Int)
    rw [countHeld_append_one]
    simp only [Option.isSome_some, if_true]
    omega
  | release i b => exact hrel i b
  | drop i => exact hrel i false
  | moveAssign i j =>
    simp only [step]
    split
    · next hlen =>
      have hlen' : i < (releaseCore s i false).locks.length := by
        rw [releaseCore_locks_length]; exact hlen
      rw [countHeld_transfer (releaseCore s i false).locks i j hlen'
        (releaseCore_getD_none s i false)]
      exact hrel i false
    · exact hrel i false
  | moveCtorFrom j =>
    show s.ws.remaining_locks
      = (countHeld ((s.locks.set j none) ++ [s.locks.getD j none]) : Int)
    rw [countHeld_append_one]
    have hc := countHeld_set_none s.locks j
    omega

theorem remaining_run (s : RaceState) (t : List Event)
    (h : s.ws.remaining_locks = (countHeld s.locks : Int)) :
    (run s t).ws.remaining_locks = (countHeld (run s t).locks : Int) := by
  induction t generalizing s with
  | nil => exact h
  | cons e t ih => exact ih (step s e) (remaining_step s e h)

/-! ### Credential accounting -/

theorem nextCred_step_acquire (s : RaceState) :
    (step s .acquire).nextCred = s.nextCred + 1 := rfl

theorem nextCred_step_ne (s : RaceState) (e : Event) (h : e ≠ Event.acquire) :
    (step s e).nextCred = s.nextCred := by
  cases e with
  | acquire => exact absurd rfl h
  | release i b => exact releaseCore_nextCred s i b
  | drop i => exact releaseCore_nextCred s i false
  | moveAssign i j =>
    simp only [step]
    split
    · exact releaseCore_nextCred s i false
    · exact releaseCore_nextCred s i false
  | moveCtorFrom j => rfl

theorem nextCred_mono_step (s : RaceState) (e : Event) :
    s.nextCred ≤ (step s e).nextCred := by
  by_cases h : e = Event.acquire
  · subst h; rw [nextCred_step_acquire]; omega
  · rw [nextCred_step_ne s e h]

theorem nextCred_mono_run (s : RaceState) (t : List Event) :
    s.nextCred ≤ (run s t).nextCred := by
  induction t generalizing s with
  | nil => exact Nat.le_refl _
  | cons e rest ih =>
    exact Nat.le_trans (nextCred_mono_step s e) (ih (step s e))

/-- One step conserves, per credential, "number of holders plus decrements",
except for the acquisition that creates the credential. -/
theorem countCred_step (s : RaceState) (e : Event) (k : Nat)
    (h : ¬(e = Event.acquire ∧ k = s.nextCred)) :
    countCred (step s e).locks k + (if decrementsCred s e k then 1 else 0)
      = countCred s.locks k := by
  cases e with
  | acquire =>
    have hk : k ≠ s.nextCred := fun hh => h ⟨rfl, hh⟩
    show countCred (s.locks ++ [some s.nextCred]) k
        + (if decrementsCred s .acquire k then 1 else 0) = countCred s.locks k
    rw [countCred_append_one]
    have hb : ((some s.nextCred == some k) : Bool) = false := by
      rw [beq_eq_false_iff_ne]
      intro hh
      exact hk (Option.some.inj hh).symm
    rw [hb]
    simp [decrementsCred]
  | release i b =>
    show countCred (releaseCore s i b).locks k
        + (if decrementsCred s (.release i b) k then 1 else 0)
        = countCred s.locks k
    cases hgd : s.locks.getD i none with
    | none =>
      rw [releaseCore_eq_self hgd]
      have hd : decrementsCred s (.release i b) k = false := by
        simp only [decrementsCred]
        rw [hgd]
        rfl
      simp only [hd, Bool.false_eq_true, if_false, Nat.add_zero]
    | some c =>
      rw [releaseCore_eq_consume hgd]
      have hd : decrementsCred s (.release i b) k = (some c == some k) := by
        simp only [decrementsCred]
        rw [hgd]
      simp only [hd]
      show countCred (s.locks.set i none) k
          + (if (some c == some k) then 1 else 0) = countCred s.locks k
      have hc := countCred_set_none s.locks i k
      rw [hgd] at hc
      exact hc
  | drop i =>
    show countCred (releaseCore s i false).locks k
        + (if decrementsCred s (.drop i) k then 1 else 0)
        = countCred s.locks k
    cases hgd : s.locks.getD i none with
    | none =>
      rw [releaseCore_eq_self hgd]
      have hd : decrementsCred s (.drop i) k = false := by
        simp only [decrementsCred]
        rw [hgd]
        rfl
      simp only [hd, Bool.false_eq_true, if_false, Nat.add_zero]
    | some c =>
      rw [releaseCore_eq_consume hgd]
      have hd : decrementsCred s (.drop i) k = (some c == some k) := by
        simp only [decrementsCred]
        rw [hgd]
      simp only [hd]
      show countCred (s.locks.set i none) k
          + (if (some c == some k) then 1 else 0) = countCred s.locks k
      have hc := countCred_set_none s.locks i k
      rw [hgd] at hc
      exact hc
  | moveAssign i j =>
    simp only [step]
    split
    · next hlen =>
      have hlen' : i < (releaseCore s i false).locks.length := by
        rw [releaseCore_locks_length]; exact hlen
      rw [countCred_transfer (releaseCore s i false).locks i j k hlen'
        (releaseCore_getD_none s i false)]
      cases hgd : s.locks.getD i none with
      | none =>
        rw [releaseCore_eq_self hgd]
        have hd : decrementsCred s (.moveAssign i j) k = false := by
          simp only [decrementsCred]
          rw [hgd]
          rfl
        simp only [hd, Bool.false_eq_true, if_false, Nat.add_zero]
      | some c =>
        rw [releaseCore_eq_consume hgd]
        have hd : decrementsCred s (.moveAssign i j) k = (some c == some k) := by
          simp only [decrementsCred]
          rw [hgd]
        simp only [hd]
        show countCred (s.locks.set i none) k
            + (if (some c == some k) then 1 else 0) = countCred s.locks k
        have hc := countCred_set_none s.locks i k
        rw [hgd] at hc
        exact hc
    · next hlen =>
      have hgd : s.locks.getD i none = none :=
        List.getD_eq_default s.locks none (by omega)
      rw [releaseCore_eq_self hgd]
      have hd : decrementsCred s (.moveAssign i j) k = false := by
        simp only [decrementsCred]
        rw [hgd]
        rfl
      simp only [hd, Bool.false_eq_true, if_false, Nat.add_zero]
  | moveCtorFrom j =>
    show countCred ((s.locks.set j none) ++ [s.locks.getD j none]) k
        + (if decrementsCred s (.moveCtorFrom j) k then 1 else 0)
        = countCred s.locks k
    have hd : decrementsCred s (.moveCtorFrom j) k = false := rfl
    simp only [hd, Bool.false_eq_true, if_false, Nat.add_zero]
    rw [countCred_append_one]
    have hc := countCred_set_none s.locks j k
    omega

/-- Once a credential exists (`k < nextCred`), "holders plus future
decrements" is conserved along any trace. -/
theorem cred_after (t : List Event) (s : RaceState) (k : Nat)
    (hk : k < s.nextCred) :
    credDecrements s t k + countCred (run s t).locks k = countCred s.locks k := by
  induction t generalizing s with
  | nil => simp [credDecrements, run]
  | cons e rest ih =>
    have hne : ¬(e = Event.acquire ∧ k = s.nextCred) := by
      rintro ⟨_, hh⟩
      omega
    have hstep := countCred_step s e k hne
    have hk' : k < (step s e).nextCred :=
      Nat.lt_of_lt_of_le hk (nextCred_mono_step s e)
    have hrest := ih (step s e) hk'
    simp only [credDecrements, run]
    omega

/-- Main conservation law: starting from a state where credential `k` does
not exist yet, the number of decrements charged to `k` plus the number of
current holders of `k` is `1` exactly when `k` has been created. -/
theorem cred_main (t : List Event) (s : RaceState) (k : Nat)
    (hk : s.nextCred ≤ k) (h0 : countCred s.locks k = 0) :
    credDecrements s t k + countCred (run s t).locks k
      = if k < (run s t).nextCred then 1 else 0 := by
  induction t generalizing s with
  | nil =>
    simp only [credDecrements, run]
    rw [if_neg (by omega)]
    omega
  | cons e rest ih =>
    by_cases he : e = Event.acquire ∧ k = s.nextCred
    · obtain ⟨he1, he2⟩ := he
      subst he1
      subst he2
      have hcnt : countCred (step s .acquire).locks s.nextCred = 1 := by
        show countCred (s.locks ++ [some s.nextCred]) s.nextCred = 1
        rw [countCred_append_one, h0]
        simp
      have hk2 : s.nextCred < (step s .acquire).nextCred := by
        rw [nextCred_step_acquire]; omega
      have hafter := cred_after rest (step s .acquire) s.nextCred hk2
      have hfin : s.nextCred < (run (step s .acquire) rest).nextCred :=
        Nat.lt_of_lt_of_le hk2 (nextCred_mono_run _ rest)
      simp only [credDecrements, run]
      rw [if_pos hfin]
      have hdec : decrementsCred s Event.acquire s.nextCred = false := rfl
      rw [hdec]
      simp only [Bool.false_eq_true, if_false]
      omega
    · have hstep := countCred_step s e k he
      have hnc : (step s e).nextCred ≤ k := by
        by_cases ha : e = Event.acquire
        · subst ha
          rw [nextCred_step_acquire]
          have : k ≠ s.nextCred := fun hh => he ⟨rfl, hh⟩
          omega
        · rw [nextCred_step_ne s e ha]; exact hk
      have ih' := ih (step s e) hnc (by omega)
      simp only [credDecrements, run]
      omega

/-! ### Immediate outcomes of `wait_for_success` -/

theorem waitOutcome_of_success {s : RaceState} (h : s.ws.success = true) :
    wait_for_success (some s) = (some true, none) := by
  simp [wait_for_success, WaitState.blocked, h]

end SuccessCondition

namespace SuccessCondition

/-! ### Claims about `SuccessCondition` -/

/-- Claim C1: for every race, if any single lock is consumed by
`release(true)` at some point — before or while `wait_for_success` is
pending — then `wait_for_success` resolves to `true`, regardless of the
other events of the trace (in particular regardless of how many other locks
have not yet been released). -/
theorem claim1_release_true_wins (t1 t2 : List Event) (i : Nat)
    (h : ((run RaceState.mkInit t1).locks.getD i none).isSome = true) :
    (wait_for_success (some (run RaceState.mkInit
        (t1 ++ Event.release i true :: t2)))).1 = some true := by
  rw [run_append]
  show (wait_for_success (some (run (step (run RaceState.mkInit t1)
      (Event.release i true)) t2))).1 = some true
  have hsucc : (step (run RaceState.mkInit t1) (Event.release i true)).ws.success
      = true := by
    rw [success_step]
    show ((run RaceState.mkInit t1).ws.success
        || (true && ((run RaceState.mkInit t1).locks.getD i none).isSome)) = true
    rw [h]
    simp
  have hfin : (run (step (run RaceState.mkInit t1) (Event.release i true))
      t2).ws.success = true := by
    rw [success_run, hsucc]
    simp
  rw [waitOutcome_of_success hfin]

/-- Witness for C1: a one-participant race in which that participant calls
`release(true)`. -/
theorem claim1_witness :
    ((run RaceState.mkInit [Event.acquire]).locks.getD 0 none).isSome = true
      ∧ (wait_for_success (some (run RaceState.mkInit
          ([Event.acquire] ++ Event.release 0 true :: [])))).1 = some true :=
  ⟨by decide, claim1_release_true_wins [Event.acquire] [] 0 (by decide)⟩

/-- Claim C2: if, at the end of the race, every lock object has given up its
pointer (every acquired lock was consumed by `release(false)` or dropped)
and no consumed `release(true)` ever happened, then `wait_for_success`
returns `false`. -/
theorem claim2_all_fail_returns_false (t : List Event)
    (hdead : countHeld (run RaceState.mkInit t).locks = 0)
    (hnosucc : consumesSuccess RaceState.mkInit t = false) :
    (wait_for_success (some (run RaceState.mkInit t))).1 = some false := by
  have hsucc : (run RaceState.mkInit t).ws.success = false := by
    rw [success_run, hnosucc]
    rfl
  have hrem : (run RaceState.mkInit t).ws.remaining_locks
      = (countHeld (run RaceState.mkInit t).locks : Int) :=
    remaining_run RaceState.mkInit t rfl
  rw [hdead] at hrem
  simp [wait_for_success, WaitState.blocked, hsucc, hrem]

/-- Witness for C2: one lock acquired and dropped without release. -/
theorem claim2_witness :
    countHeld (run RaceState.mkInit [Event.acquire, Event.drop 0]).locks = 0
      ∧ consumesSuccess RaceState.mkInit [Event.acquire, Event.drop 0] = false
      ∧ (wait_for_success (some (run RaceState.mkInit
          [Event.acquire, Event.drop 0]))).1 = some false :=
  ⟨by decide, by decide,
    claim2_all_fail_returns_false [Event.acquire, Event.drop 0]
      (by decide) (by decide)⟩

/-- Claim C3: `wait_for_success` on a coordinator on which no lock has ever
been acquired (its `_wait_state` pointer is still null) returns `false`
immediately — the first component is `some false`, meaning the `blocked()`
test failed and `condition.wait` was never entered. -/
theorem claim3_empty_wait_false :
    wait_for_success (none : Option RaceState) = (some false, none) := by
  decide

/-- Claim C4: conservation law expressing that every acquisition credential
is decremented exactly once over its lifetime.  For every trace and every
credential `k`: the decrements charged to `k` plus the lock objects still
holding `k` equal `1` if `k` was created (`k < nextCred`) and `0`
otherwise.  Hence a credential that is no longer held (its lock was
consumed by release, redundant release being a no-op, move or destruction)
has been decremented exactly once — never zero times, never twice. -/
theorem claim4_each_lock_decrements_once (t : List Event) (k : Nat) :
    credDecrements RaceState.mkInit t k
        + countCred (run RaceState.mkInit t).locks k
      = if k < (run RaceState.mkInit t).nextCred then 1 else 0 :=
  cred_main t RaceState.mkInit k (Nat.zero_le k) rfl

/-- Claim C5: the `success` flag is monotonic.  Once some lock's
`release(true)` has set it (during `t1`), no later trace `t2` of further
releases, drops or moves can unset it, and `wait_for_success` still resolves
to `true`. -/
theorem claim5_success_monotonic (t1 t2 : List Event)
    (h : consumesSuccess RaceState.mkInit t1 = true) :
    (run RaceState.mkInit (t1 ++ t2)).ws.success = true
      ∧ (wait_for_success (some (run RaceState.mkInit (t1 ++ t2)))).1
          = some true := by
  have h1 : (run RaceState.mkInit t1).ws.success = true := by
    rw [success_run, h]
    simp
  have h2 : (run RaceState.mkInit (t1 ++ t2)).ws.success = true := by
    rw [run_append, success_run, h1]
    simp
  exact ⟨h2, by rw [waitOutcome_of_success h2]⟩

/-- Witness for C5: a success followed by another participant failing. -/
theorem claim5_witness :
    consumesSuccess RaceState.mkInit [Event.acquire, Event.release 0 true] = true
      ∧ ((run RaceState.mkInit ([Event.acquire, Event.release 0 true]
            ++ [Event.acquire, Event.release 1 false])).ws.success = true
        ∧ (wait_for_success (some (run RaceState.mkInit
            ([Event.acquire, Event.release 0 true]
              ++ [Event.acquire, Event.release 1 false])))).1 = some true) :=
  ⟨by decide,
    claim5_success_monotonic [Event.acquire, Event.release 0 true]
      [Event.acquire, Event.release 1 false] (by decide)⟩

/-- Claim C6: if some lock was already consumed by `release(true)` before
`wait_for_success` is called, the call returns `true` immediately: the
result is `some true` (not `none`), i.e. the `blocked()` test fails and
`condition.wait` is never entered — a wake that happened before the wait is
not lost. -/
theorem claim6_no_missed_wakeup (t : List Event)
    (h : consumesSuccess RaceState.mkInit t = true) :
    wait_for_success (some (run RaceState.mkInit t)) = (some true, none) := by
  have hs : (run RaceState.mkInit t).ws.success = true := by
    rw [success_run, h]
    simp
  exact waitOutcome_of_success hs

/-- Witness for C6. -/
theorem claim6_witness :
    consumesSuccess RaceState.mkInit [Event.acquire, Event.release 0 true] = true
      ∧ wait_for_success (some (run RaceState.mkInit
          [Event.acquire, Event.release 0 true])) = (some true, none) :=
  ⟨by decide,
    claim6_no_missed_wakeup [Event.acquire, Event.release 0 true] (by decide)⟩

/-- Claim C7 counterexample: the claim "no operation of the coordinator or
of a `ParticipantLock` ever increases `remaining_locks`" is false at the
concrete input of acquiring a lock on a fresh coordinator: the `Lock`
constructor (line 97 of success_condition.h) increments `remaining_locks`
from `0` to `1`. -/
theorem claim7_counterexample :
    ¬ ((step RaceState.mkInit Event.acquire).ws.remaining_locks
        ≤ RaceState.mkInit.ws.remaining_locks) := by
  decide

/-- Claim C7 (amended): `remaining_locks` never increases under any release,
redundant release, drop, move-assignment or move-construction; the only
operation that increases it is lock acquisition (`SuccessCondition::lock()`
/ `Lock` construction), which increments it by exactly one. -/
theorem claim7_amended (s : RaceState) (e : Event) :
    (step s e).ws.remaining_locks ≤ s.ws.remaining_locks
      ∨ (e = Event.acquire
          ∧ (step s e).ws.remaining_locks = s.ws.remaining_locks + 1) := by
  have hrel : ∀ i b, (releaseCore s i b).ws.remaining_locks
      ≤ s.ws.remaining_locks := by
    intro i b
    cases hgd : s.locks.getD i none with
    | none => rw [releaseCore_eq_self hgd]
    | some c =>
      rw [releaseCore_eq_consume hgd]
      show s.ws.remaining_locks - 1 ≤ s.ws.remaining_locks
      omega
  cases e with
  | acquire => exact Or.inr ⟨rfl, rfl⟩
  | release i b => exact Or.inl (hrel i b)
  | drop i => exact Or.inl (hrel i false)
  | moveAssign i j =>
    refine Or.inl ?_
    simp only [step]
    split
    · exact hrel i false
    · exact hrel i false
  | moveCtorFrom j => exact Or.inl (Int.le_refl _)

/-- Claim C9: `wait_for_success` consumes the coordinator's state (the code
moves the `_wait_state` pointer out).  Whatever the coordinator's state was,
after a completed wait a second `wait_for_success` with no intervening
`lock()` returns `false` immediately, and a `lock()` acquired after the
wait starts a race in the fresh just-allocated state — independent of the
previous race. -/
theorem claim9_wait_resets_state (c : Option RaceState) :
    wait_for_success (wait_for_success c).2 = (some false, none)
      ∧ lock (wait_for_success c).2 = some (step RaceState.mkInit Event.acquire) := by
  have h2 : (wait_for_success c).2 = none := rfl
  rw [h2]
  constructor
  · decide
  · decide

/-- Claim C10: move-assignment `i = move(j)` first consumes the target's
pending state exactly as `release(false)` does (same effect on the shared
`WaitState`), and afterwards the moved-from lock `j` is inert: a subsequent
`release` (with either flag) or destructor call on `j` leaves the entire
race state unchanged. -/
theorem claim10_move_semantics (s : RaceState) (i j : Nat) (b : Bool)
    (hi : i < s.locks.length) :
    (step s (Event.moveAssign i j)).ws = (step s (Event.release i false)).ws
      ∧ step (step s (Event.moveAssign i j)) (Event.release j b)
          = step s (Event.moveAssign i j)
      ∧ step (step s (Event.moveAssign i j)) (Event.drop j)
          = step s (Event.moveAssign i j) := by
  have hws : (step s (Event.moveAssign i j)).ws = (releaseCore s i false).ws := by
    simp only [step]
    rw [if_pos hi]
  have hj : (step s (Event.moveAssign i j)).locks.getD j none = none := by
    simp only [step]
    rw [if_pos hi]
    show (((releaseCore s i false).locks.set i
        ((releaseCore s i false).locks.getD j none)).set j none).getD j none = none
    by_cases hjl : j < ((releaseCore s i false).locks.set i
        ((releaseCore s i false).locks.getD j none)).length
    · exact getD_set_self _ j none hjl
    · refine List.getD_eq_default _ none ?_
      rw [List.length_set]
      omega
  refine ⟨hws, ?_, ?_⟩
  · show releaseCore (step s (Event.moveAssign i j)) j b = step s (Event.moveAssign i j)
    exact releaseCore_eq_self hj b
  · show releaseCore (step s (Event.moveAssign i j)) j false = step s (Event.moveAssign i j)
    exact releaseCore_eq_self hj false

/-- Witness for C10: a two-participant race, moving lock 1 into lock 0. -/
theorem claim10_witness :
    0 < (run RaceState.mkInit [Event.acquire, Event.acquire]).locks.length
      ∧ ((step (run RaceState.mkInit [Event.acquire, Event.acquire])
            (Event.moveAssign 0 1)).ws
          = (step (run RaceState.mkInit [Event.acquire, Event.acquire])
              (Event.release 0 false)).ws
        ∧ step (step (run RaceState.mkInit [Event.acquire, Event.acquire])
              (Event.moveAssign 0 1)) (Event.release 1 true)
            = step (run RaceState.mkInit [Event.acquire, Event.acquire])
                (Event.moveAssign 0 1)
        ∧ step (step (run RaceState.mkInit [Event.acquire, Event.acquire])
              (Event.moveAssign 0 1)) (Event.drop 1)
            = step (run RaceState.mkInit [Event.acquire, Event.acquire])
                (Event.moveAssign 0 1)) :=
  ⟨by decide,
    claim10_move_semantics (run RaceState.mkInit [Event.acquire, Event.acquire])
      0 1 true (by decide)⟩

end SuccessCondition

/-! ### `connect_to_host` -/

/-- Modelled from the spec: the error taxonomy of `connect_to_host`
(src/src/connect_to_host.h declares the function but its implementation is
not part of src/).  Spec section 7: `ResolutionFailure` (no usable address),
`ConnectionFailed` (every candidate failed), `Cancelled` (external signal
fired before any success). -/
inductive ConnectError where
  | ResolutionFailure
  | ConnectionFailed
  | Cancelled
deriving DecidableEq, Repr

/-- Modelled from the spec (section 4.5, step 2): the race run by
`connect_to_host` — one lock acquired per candidate, then each candidate's
attempt releases its lock with its success flag. -/
def raceTrace (outcomes : List Bool) : List SuccessCondition.Event :=
  (outcomes.map fun _ => SuccessCondition.Event.acquire)
    ++ outcomes.enum.map fun p => SuccessCondition.Event.release p.1 p.2

/-- Modelled from the spec: the implementation of `connect_to_host` is not
part of src/ (src/src/connect_to_host.h only declares it), so this follows
section 4.5 of the spec.  `resolved` is the resolver's outcome (`none` =
resolver failed), `attempt` gives each candidate's connection if its
attempt succeeds, `cancelFired` whether the external cancel signal fired.
Step 1: no candidates or resolver failure gives `ResolutionFailure`.
Step 2–3: the candidates race under one `SuccessCondition` and the
orchestrator suspends on `wait_for_success`.  Step 4: on `true`, the first
recorded connection is returned.  Step 5: on `false`, `Cancelled` if the
external signal fired, else `ConnectionFailed`. -/
def connect_to_host {α β : Type} (resolved : Option (List α))
    (attempt : α → Option β) (cancelFired : Bool) : Except ConnectError β :=
  match resolved with
  | none => Except.error ConnectError.ResolutionFailure
  | some [] => Except.error ConnectError.ResolutionFailure
  | some (a :: addrs) =>
    let results := (a :: addrs).map attempt
    match (SuccessCondition.wait_for_success (some (SuccessCondition.run
          SuccessCondition.RaceState.mkInit
          (raceTrace (results.map Option.isSome))))).1,
        results.filterMap id with
    | some true, c :: _ => Except.ok c
    | some true, [] =>
        if cancelFired then Except.error ConnectError.Cancelled
        else Except.error ConnectError.ConnectionFailed
    | _, _ =>
        if cancelFired then Except.error ConnectError.Cancelled
        else Except.error ConnectError.ConnectionFailed

/-- Claim C8: `connect_to_host` resolves to exactly one of a live connection
or a typed error, and every error it can fail with is one of
`ResolutionFailure`, `ConnectionFailed` or `Cancelled` (the `Except` result
makes connection and error mutually exclusive; this theorem shows the error
taxonomy is exhaustive for every input). -/
theorem claim8_connect_to_host_total (α β : Type) (resolved : Option (List α))
    (attempt : α → Option β) (cancelFired : Bool) :
    (∃ c, connect_to_host resolved attempt cancelFired = Except.ok c)
      ∨ connect_to_host resolved attempt cancelFired
          = Except.error ConnectError.ResolutionFailure
      ∨ connect_to_host resolved attempt cancelFired
          = Except.error ConnectError.ConnectionFailed
      ∨ connect_to_host resolved attempt cancelFired
          = Except.error ConnectError.Cancelled := by
  cases resolved with
  | none => exact Or.inr (Or.inl rfl)
  | some l =>
    cases l with
    | nil => exact Or.inr (Or.inl rfl)
    | cons a addrs =>
      simp only [connect_to_host]
      split
      · exact Or.inl ⟨_, rfl⟩
      · split
        · exact Or.inr (Or.inr (Or.inr rfl))
        · exact Or.inr (Or.inr (Or.inl rfl))
      · split
        · exact Or.inr (Or.inr (Or.inr rfl))
        · exact Or.inr (Or.inr (Or.inl rfl))
